import Mathlib

/-!
Shallow embedding of `wally-package-types` (`src/command.rs`) and proofs about
its resolver, analyzer driver, link-mutation driver and directory orchestration.

Paths are modelled as lists of components (`FsPath`); they are taken to be
canonical already, so `Path::canonicalize` is the identity on paths that exist
in the modelled file system and an I/O error otherwise.

The crates `sourcemap.rs`, `require_parser.rs` and `link_mutator.rs` are not in
the sources at hand; the handful of items `command.rs` uses from them
(`SourcemapNode.find_child`, `mutate_sourcemap`, `match_require`,
`mutate_link`) are modelled from the specification, each marked by a doc
comment starting `Modelled from the spec:`.  The link mutator is kept as an
explicit function parameter `ml` of the driver code, so every theorem about the
driver holds for an arbitrary mutator.
-/

/-- A file-system path, as its list of components (already canonical). -/
abbrev FsPath := List String

/-- Characters after the last `.` of a file name, `none` when there is no dot. -/
def extCore : List Char → Option (List Char)
  | [] => none
  | c :: rest =>
    match extCore rest with
    | some e => some e
    | none => if c = '.' then some rest else none

/-- `Path::extension` of the final component: the part after the last dot;
`none` when there is no dot or the only dot starts the file name (Rust treats
a leading dot as part of the stem, as in `.gitignore`). -/
def pathExtension (p : FsPath) : Option String :=
  match p.getLast? with
  | none => none
  | some name =>
    let stem := match name.data with
      | '.' :: rest => rest
      | cs => cs
    (extCore stem).map fun cs => { data := cs }

/-- `SourcemapNode` of `sourcemap.rs` as used by `command.rs`: name, class
name, associated file paths and children.  A nested inductive, hence always a
finite rooted tree. -/
inductive SourcemapNode where
  | mk (name : String) (class_name : String)
       (file_paths : List FsPath) (children : List SourcemapNode)

def SourcemapNode.name : SourcemapNode → String
  | .mk n _ _ _ => n

def SourcemapNode.class_name : SourcemapNode → String
  | .mk _ c _ _ => c

def SourcemapNode.file_paths : SourcemapNode → List FsPath
  | .mk _ _ f _ => f

def SourcemapNode.children : SourcemapNode → List SourcemapNode
  | .mk _ _ _ c => c

/-- Modelled from the spec: `sourcemap.rs` is not among the sources.  §3 says
children are name-unique within a parent; `find_child` returns the child with
the given instance name, if any. -/
def SourcemapNode.find_child (n : SourcemapNode) (name : String) : Option SourcemapNode :=
  n.children.find? (fun c => c.name = name)

/-- Modelled from the spec: the Hierarchy Normalizer of `sourcemap.rs` is not
among the sources.  §4.1: it canonicalizes every `file_paths` entry and wires
parent back-references.  In this embedding file paths are stored canonical and
parent links are never consulted by `command.rs`, so normalization is the
identity. -/
def mutate_sourcemap (n : SourcemapNode) : SourcemapNode := n

/-- Number of nodes of the (sub)tree rooted at a node. -/
def nodeSize : SourcemapNode → Nat
  | .mk _ _ _ cs => 1 + nodeListSize cs
where
  nodeListSize : List SourcemapNode → Nat
  | [] => 0
  | c :: cs => nodeSize c + nodeListSize cs

/-- Whether some node of the subtree has `p` among its `file_paths`. -/
def containsPath (p : FsPath) : SourcemapNode → Bool
  | .mk _ _ fps cs => fps.contains p || containsPathList p cs
where
  containsPathList (p : FsPath) : List SourcemapNode → Bool
  | [] => false
  | c :: cs => containsPath p c || containsPathList p cs

/-- `lua_files_filter` (command.rs:42-47): keep paths with extension `lua` or
`luau`. -/
def lua_files_filter (p : FsPath) : Bool :=
  match pathExtension p with
  | some extension => extension = "lua" || extension = "luau"
  | none => false

section Scratch
example : lua_files_filter ["proj", "A.lua"] = true := by decide
example : lua_files_filter ["proj", "A.json"] = false := by decide
example : lua_files_filter ["proj", "A.tar.luau"] = true := by decide
example : lua_files_filter ["proj", "Alua"] = false := by decide
end Scratch

/-- Weight of one stack entry of the `find_node` worklist: the size of the
subtree below the chain's last node (`1` for the unreachable empty chain). -/
def chainWeight (l : List SourcemapNode) : Nat :=
  match l.getLast? with
  | some n => nodeSize n
  | none => 1

/-- Total weight of the `find_node` worklist; decreases by one per iteration. -/
def stackMeasure (stack : List (List SourcemapNode)) : Nat :=
  (stack.map chainWeight).sum

theorem nodeListSize_eq_sum (cs : List SourcemapNode) :
    nodeSize.nodeListSize cs = (cs.map nodeSize).sum := by
  induction cs with
  | nil => rfl
  | cons c cs ih => simp [nodeSize.nodeListSize, ih]

theorem chainWeight_append_singleton (l : List SourcemapNode) (c : SourcemapNode) :
    chainWeight (l ++ [c]) = nodeSize c := by
  simp [chainWeight]

theorem stackMeasure_children (node_path : List SourcemapNode) (node : SourcemapNode)
    (stack : List (List SourcemapNode)) (h : node_path.getLast? = some node) :
    stackMeasure ((node.children.map (fun c => node_path ++ [c])).reverse ++ stack) <
      stackMeasure (node_path :: stack) := by
  cases node with
  | mk name cls fps cs =>
    simp only [stackMeasure, List.map_append, List.sum_append, List.map_reverse,
      List.sum_reverse, List.map_map, List.map_cons, List.sum_cons]
    have hw : chainWeight node_path = nodeSize (.mk name cls fps cs) := by
      simp [chainWeight, h]
    have hcomp : (chainWeight ∘ fun c => node_path ++ [c]) = nodeSize := by
      funext c; simp [chainWeight_append_singleton]
    rw [hcomp, hw, nodeSize, nodeListSize_eq_sum]
    simp only [SourcemapNode.children]
    omega

/-- The worklist loop of `find_node` (command.rs:26-37).  The stack is a list
of chains, most recently pushed first; each iteration pops one chain, returns
it when its last node carries `path`, and otherwise pushes every child-extended
chain.  Entries are nonempty by construction; an empty entry is dropped (the
Rust code would panic on `last().unwrap()`, but never reaches that state). -/
def findNodeLoop (path : FsPath) (stack : List (List SourcemapNode)) :
    Option (List SourcemapNode) :=
  match stack with
  | [] => none
  | node_path :: stack =>
    match h : node_path.getLast? with
    | none => findNodeLoop path stack
    | some node =>
      if path ∈ node.file_paths then some node_path
      else findNodeLoop path ((node.children.map (fun c => node_path ++ [c])).reverse ++ stack)
termination_by stackMeasure stack
decreasing_by
  · simp only [stackMeasure, List.map_cons, List.sum_cons, chainWeight, h]
    omega
  · exact stackMeasure_children _ _ _ h

theorem findNodeLoop_nil (path : FsPath) : findNodeLoop path [] = none := by
  rw [findNodeLoop]

theorem findNodeLoop_cons_empty (path : FsPath) (node_path : List SourcemapNode)
    (stack : List (List SourcemapNode)) (h : node_path.getLast? = none) :
    findNodeLoop path (node_path :: stack) = findNodeLoop path stack := by
  rw [findNodeLoop]
  split
  · rfl
  · next node heq => rw [heq] at h; cases h

theorem findNodeLoop_cons (path : FsPath) (node_path : List SourcemapNode)
    (stack : List (List SourcemapNode)) (node : SourcemapNode)
    (h : node_path.getLast? = some node) :
    findNodeLoop path (node_path :: stack) =
      if path ∈ node.file_paths then some node_path
      else findNodeLoop path
        ((node.children.map (fun c => node_path ++ [c])).reverse ++ stack) := by
  rw [findNodeLoop]
  split
  · next heq => rw [heq] at h; cases h
  · next node' heq => rw [heq] at h; cases h; rfl

/-- `find_node` (command.rs:23-40): explicit-stack search for the chain from
`root` to the node whose `file_paths` contains `path`. -/
def find_node (root : SourcemapNode) (path : FsPath) : Option (List SourcemapNode) :=
  findNodeLoop path [[root]]

section Scratch2
example :
    find_node (.mk "game" "DataModel" [] [.mk "A" "ModuleScript" [["proj", "A.lua"]] []])
      ["proj", "A.lua"] =
    some [.mk "game" "DataModel" [] [.mk "A" "ModuleScript" [["proj", "A.lua"]] []],
          .mk "A" "ModuleScript" [["proj", "A.lua"]] []] := by
  simp [find_node, findNodeLoop_nil, findNodeLoop_cons, List.getLast?_cons_cons,
    List.getLast?_singleton, SourcemapNode.file_paths, SourcemapNode.children]
end Scratch2

/-! ### File-system and source-text model

The parser/printer pair of `full_moon` is a black box per the specification,
so source text is modelled as either a well-formed parse result or raw
unparseable text; `full_moon::print` emits the parsed form back. -/

/-- A Lua-family expression, as far as `command.rs` and the Analyzer look at
it: identifiers, static field accesses, computed indexing, calls, strings. -/
inductive LuaExpr where
  | name (s : String)
  | index (e : LuaExpr) (field : String)
  | indexExpr (e : LuaExpr) (i : LuaExpr)
  | call (f : LuaExpr) (args : List LuaExpr)
  | str (s : String)

/-- `full_moon::ast::LastStmt` as `command.rs` distinguishes it: a return with
its expression list, or any non-return last statement (`break`, ...). -/
inductive LuaLastStmt where
  | ret (returns : List LuaExpr)
  | brk

/-- A parsed chunk: the ordinary statements (opaque to this tool, kept as
text) and the optional last statement. -/
structure LuaAst where
  stmts : List String
  last_stmt : Option LuaLastStmt

/-- Source text: either text that parses to a given chunk, or raw text the
parser rejects. -/
inductive Content where
  | lua (ast : LuaAst)
  | raw (text : String)

/-- `full_moon::parse`, black-box: succeeds exactly on well-formed text. -/
def fullMoonParse : Content → Except String LuaAst
  | .lua ast => .ok ast
  | .raw _ => .error "full_moon parse error"

/-- `full_moon::print`, black-box inverse of `full_moon::parse`. -/
def fullMoonPrint (ast : LuaAst) : Content := .lua ast

/-- A file-system tree: files with their text, directories with named
entries. -/
inductive FsEntry where
  | file (content : Content)
  | dir (entries : List (String × FsEntry))

/-- Follow a path down a file-system tree. -/
def fsLookup : FsEntry → FsPath → Option FsEntry
  | e, [] => some e
  | .file _, _ :: _ => none
  | .dir es, n :: rest =>
    match es.find? (fun en => en.1 == n) with
    | none => none
    | some (_, e) => fsLookup e rest

/-- `std::fs::read_to_string`. -/
def readFile (fs : FsEntry) (p : FsPath) : Except String Content :=
  match fsLookup fs p with
  | some (.file c) => .ok c
  | _ => .error "read_to_string: No such file"

/-- `Path::canonicalize`: paths are stored canonical, so this is the identity
on existing paths and an I/O error otherwise. -/
def canonicalize (fs : FsEntry) (p : FsPath) : Except String FsPath :=
  match fsLookup fs p with
  | some _ => .ok p
  | none => .error "canonicalize: No such file or directory"

/-- `std::fs::read_dir`: the named entries of a directory. -/
def readDir (fs : FsEntry) (p : FsPath) : Except String (List (String × FsEntry)) :=
  match fsLookup fs p with
  | some (.dir es) => .ok es
  | _ => .error "read_dir: Not a directory"

/-- `DirEntry::file_type().is_file()`. -/
def FsEntry.isFile : FsEntry → Bool
  | .file _ => true
  | .dir _ => false

/-- Replace the entry named `n`, or append it when absent. -/
def setEntry (es : List (String × FsEntry)) (n : String) (e : FsEntry) :
    List (String × FsEntry) :=
  match es with
  | [] => [(n, e)]
  | (m, x) :: rest => if m = n then (n, e) :: rest else (m, x) :: setEntry rest n e

/-- `std::fs::write`: whole-file replacement; fails when the parent directory
does not exist. -/
def fsWrite : FsEntry → FsPath → Content → Except String FsEntry
  | _, [], _ => .error "write: invalid path"
  | .file _, _ :: _, _ => .error "write: Not a directory"
  | .dir es, n :: rest, c =>
    match rest with
    | [] => .ok (.dir (setEntry es n (.file c)))
    | _ :: _ =>
      match es.find? (fun en => en.1 == n) with
      | none => .error "write: No such directory"
      | some (_, e) => (fsWrite e rest c).map fun e' => .dir (setEntry es n e')

/-! ### Path Resolver (`file_path_from_components`, command.rs:49-94) -/

/-- The `for component in iter` loop of `file_path_from_components`
(command.rs:65-77).  `"Parent"` is `Vec::pop` with
`expect("No parent available")` — it fails only when the chain is already
empty; any other name looks up the named child of `last().unwrap()`. -/
def resolve_components : List SourcemapNode → List String → Except String (List SourcemapNode)
  | node_path, [] => .ok node_path
  | node_path, component :: rest =>
    if component = "Parent" then
      match node_path with
      | [] => .error "No parent available"
      | _ :: _ => resolve_components node_path.dropLast rest
    else
      match node_path.getLast? with
      | none => .error "called unwrap on None"
      | some node =>
        match node.find_child component with
        | none => .error "unable to find child"
        | some child => resolve_components (node_path ++ [child]) rest

/-- The tail of `file_path_from_components` (command.rs:79-93): take the last
chain node (`last().unwrap()`), pick the first of its `file_paths` passing
`lua_files_filter`, `expect("No file path for require")` otherwise. -/
def select_lua_file (node_path : List SourcemapNode) : Except String FsPath :=
  match node_path.getLast? with
  | none => .error "called unwrap on None"
  | some current =>
    match current.file_paths.find? lua_files_filter with
    | none => .error "No file path for require"
    | some file_path => .ok file_path

/-- `file_path_from_components` (command.rs:50-94): check the anchor, build the
starting chain (via `canonicalize` + `find_node` for `script`, the root chain
for `game`), walk the components, select the module file. -/
def file_path_from_components (fs : FsEntry) (path : FsPath) (root : SourcemapNode)
    (path_components : List String) : Except String FsPath :=
  match path_components with
  | [] => .error "No path components"
  | first_in_chain :: rest =>
    if first_in_chain = "script" ∨ first_in_chain = "game" then
      (if first_in_chain = "script" then
        (canonicalize fs path).bind fun canonical =>
          match find_node root canonical with
          | none => .error "could not find node path"
          | some node_path => .ok node_path
      else
        .ok [root]).bind fun node_path =>
      (resolve_components node_path rest).bind select_lua_file
    else
      .error "assertion failed: first_in_chain is script or game"

/-! ### Require-Expression Analyzer -/

/-- Modelled from the spec: `require_parser.rs` is not among the sources.
§4.3: accept only a chain of static field accesses whose root is the anchor
identifier `script` or `game`; every link must be a literal name (`Parent`
included, mapped by the resolver); any other shape is not applicable
(`none`). -/
def match_components : LuaExpr → Option (List String)
  | .name s => if s = "script" ∨ s = "game" then some [s] else none
  | .index e field => (match_components e).map (fun components => components ++ [field])
  | _ => none

/-- Modelled from the spec: `require_parser.rs` is not among the sources.
`match_require` accepts a `require` call with one statically indexable chain
argument and yields its components (e.g. `["script", "Parent", "Example"]`);
every other shape is not applicable (`none`). -/
def match_require : LuaExpr → Option (List String)
  | .call (.name fname) [arg] =>
    if fname = "require" then match_components arg else none
  | _ => none

/-! ### Link Mutator interface and per-thunk driver -/

/-- `MutateLinkResult` of `link_mutator.rs`: a full replacement chunk or no
change. -/
inductive MutateLinkResult where
  | changed (new_ast : LuaAst)
  | unchanged

/-- The shape of `mutate_link`.  `link_mutator.rs` is not among the sources,
so the driver below is parameterized over the mutator; every theorem about the
driver holds for an arbitrary mutator. -/
abbrev MutatorFn := LuaAst → List LuaExpr → Content → Except String MutateLinkResult

/-- `mutate_thunk` (command.rs:96-122): read and parse the file, assert that a
last statement exists, and when it is a return, analyze its first expression,
resolve, read the target, run the mutator, and write back only on `Changed`.
A non-return last statement falls through the `if let` and succeeds without
doing anything. -/
def mutate_thunk (ml : MutatorFn) (root : SourcemapNode) (fs : FsEntry) (path : FsPath) :
    Except String FsEntry :=
  (readFile fs path).bind fun text =>
  (fullMoonParse text).bind fun parsed_code =>
  if parsed_code.last_stmt.isNone then
    .error "assertion failed: last_stmt is_some"
  else
    match parsed_code.last_stmt with
    | some (.ret returns) =>
      (match returns with
       | [] => .error "called unwrap on None"
       | returned_expression :: _ =>
         match match_require returned_expression with
         | none => .error "could not resolve path for require"
         | some path_components =>
           (file_path_from_components fs path root path_components).bind fun file_path =>
           (readFile fs file_path).bind fun pass_through_contents =>
           (ml parsed_code returns pass_through_contents).bind fun new_link_contents =>
           match new_link_contents with
           | .changed new_ast => fsWrite fs path (fullMoonPrint new_ast)
           | .unchanged => .ok fs)
    | _ => .ok fs

/-- `handle_index_directory` (command.rs:124-134): for every entry of the
`_Index` directory, process every regular file of that entry as a thunk. -/
def handle_index_directory (ml : MutatorFn) (root : SourcemapNode) (fs : FsEntry)
    (path : FsPath) : Except String FsEntry :=
  (readDir fs path).bind fun package_entries =>
  package_entries.foldlM
    (fun fs package_entry =>
      (readDir fs (path ++ [package_entry.1])).bind fun thunks =>
      thunks.foldlM
        (fun fs thunk =>
          if thunk.2.isFile then
            mutate_thunk ml root fs (path ++ [package_entry.1, thunk.1])
          else
            .ok fs)
        fs)
    fs

/-- The body of the `for entry in read_dir(packages_folder)` loop of
`Command::run` (command.rs:145-152): the reserved `_Index` entry goes through
`handle_index_directory` (and, by `continue`, is not itself a thunk); every
other entry is a thunk file. -/
def run_entry (ml : MutatorFn) (root : SourcemapNode) (packages_folder : FsPath)
    (fs : FsEntry) (entry : String × FsEntry) : Except String FsEntry :=
  if entry.1 = "_Index" then
    handle_index_directory ml root fs (packages_folder ++ [entry.1])
  else
    mutate_thunk ml root fs (packages_folder ++ [entry.1])

/-- `Command::run` (command.rs:137-155) from the point where the sourcemap has
been deserialized: normalize it, then fold the per-entry step over the
packages directory.  (Reading and JSON-decoding the sourcemap file belong to
the out-of-scope loading boundary; the deserialized root is taken as given.) -/
def command_run (ml : MutatorFn) (sourcemap : SourcemapNode) (fs : FsEntry)
    (packages_folder : FsPath) : Except String FsEntry :=
  let sourcemap := mutate_sourcemap sourcemap
  (readDir fs packages_folder).bind fun entries =>
  entries.foldlM (run_entry ml sourcemap packages_folder) fs

/-! ### Concrete instances used by witnesses and counterexamples -/

/-- A mutator that always reports `Unchanged`. -/
def mlU : MutatorFn := fun _ _ _ => .ok .unchanged

/-- A small sourcemap: the root `game` with one child `A` backed by
`/proj/A.lua`. -/
def rootW : SourcemapNode :=
  .mk "game" "DataModel" [] [.mk "A" "ModuleScript" [["proj", "A.lua"]] []]

def nodeA : SourcemapNode := .mk "A" "ModuleScript" [["proj", "A.lua"]] []

/-- A packages tree holding one well-formed thunk `return require(game.A)`. -/
def fs5 : FsEntry :=
  .dir [("proj", .dir [("A.lua", .file (.raw "return {}"))]),
        ("Packages", .dir [("Foo.lua", .file (.lua
          ⟨[], some (.ret [.call (.name "require") [.index (.name "game") "A"]])⟩))])]

/-- A packages tree whose one thunk returns `require(foo())` — a call, not a
statically indexable chain. -/
def fsC1 : FsEntry :=
  .dir [("Packages", .dir [("Foo.lua", .file (.lua
    ⟨[], some (.ret [.call (.name "require") [.call (.name "foo") []]])⟩))])]

/-- A packages tree whose one file has statements before a non-return last
statement (`break`). -/
def fsC3 : FsEntry :=
  .dir [("Packages", .dir [("Foo.lua", .file (.lua ⟨["local x = 1"], some .brk⟩))])]

/-! ### Worklist invariants for `find_node` -/

theorem exceptBind_ok {α β ε : Type} (a : α) (f : α → Except ε β) :
    (Except.ok a : Except ε α).bind f = f a := rfl

theorem exceptBind_error {α β ε : Type} (e : ε) (f : α → Except ε β) :
    (Except.error e : Except ε α).bind f = Except.error e := rfl

theorem containsPathList_eq_false (p : FsPath) (cs : List SourcemapNode) :
    containsPath.containsPathList p cs = false ↔ ∀ c ∈ cs, containsPath p c = false := by
  induction cs with
  | nil => simp [containsPath.containsPathList]
  | cons c cs ih => simp [containsPath.containsPathList, ih]

/-- Every chain returned by the worklist loop is a root chain ending at a node
carrying the searched path, provided every stack entry is a root chain. -/
theorem findNodeLoop_some_inv (path : FsPath) (root : SourcemapNode) :
    ∀ stack, (∀ l ∈ stack, l.head? = some root ∧ l.Chain' (fun a b => b ∈ a.children)) →
      ∀ c, findNodeLoop path stack = some c →
        c.head? = some root ∧ c.Chain' (fun a b => b ∈ a.children) ∧
        ∃ n, c.getLast? = some n ∧ path ∈ n.file_paths := by
  intro stack
  induction stack using findNodeLoop.induct path with
  | case1 =>
    intro _ c hc
    rw [findNodeLoop_nil] at hc
    cases hc
  | case2 node_path stack hlast ih =>
    intro hinv c hc
    rw [findNodeLoop_cons_empty _ _ _ hlast] at hc
    exact ih (fun l hl => hinv l (List.mem_cons_of_mem _ hl)) c hc
  | case3 node_path stack node hlast hmem =>
    intro hinv c hc
    rw [findNodeLoop_cons _ _ _ _ hlast, if_pos hmem] at hc
    cases hc
    obtain ⟨h1, h2⟩ := hinv node_path (List.mem_cons_self _ _)
    exact ⟨h1, h2, node, hlast, hmem⟩
  | case4 node_path stack node hlast hmem ih =>
    intro hinv c hc
    rw [findNodeLoop_cons _ _ _ _ hlast, if_neg hmem] at hc
    apply ih _ c hc
    intro l hl
    rcases List.mem_append.mp hl with hl | hl
    · rw [List.mem_reverse] at hl
      obtain ⟨ch, hch, rfl⟩ := List.mem_map.mp hl
      obtain ⟨h1, h2⟩ := hinv node_path (List.mem_cons_self _ _)
      constructor
      · cases node_path with
        | nil => cases h1
        | cons a t => simpa using h1
      · rw [List.chain'_append]
        refine ⟨h2, List.chain'_singleton ch, ?_⟩
        intro x hx y hy
        simp only [hlast, Option.mem_def, Option.some.injEq] at hx
        simp only [List.head?_cons, Option.mem_def, Option.some.injEq] at hy
        subst hx; subst hy
        exact hch
    · exact hinv l (List.mem_cons_of_mem _ hl)

/-- When the worklist loop fails, no subtree below any stack entry's last node
contains the searched path. -/
theorem findNodeLoop_none_inv (path : FsPath) :
    ∀ stack, findNodeLoop path stack = none →
      ∀ l ∈ stack, ∀ n, l.getLast? = some n → containsPath path n = false := by
  intro stack
  induction stack using findNodeLoop.induct path with
  | case1 =>
    intro _ l hl
    cases hl
  | case2 node_path stack hlast ih =>
    intro hnone l hl n hn
    rw [findNodeLoop_cons_empty _ _ _ hlast] at hnone
    rcases List.mem_cons.mp hl with rfl | hl
    · rw [hlast] at hn; cases hn
    · exact ih hnone l hl n hn
  | case3 node_path stack node hlast hmem =>
    intro hnone
    rw [findNodeLoop_cons _ _ _ _ hlast, if_pos hmem] at hnone
    cases hnone
  | case4 node_path stack node hlast hmem ih =>
    intro hnone l hl n hn
    rw [findNodeLoop_cons _ _ _ _ hlast, if_neg hmem] at hnone
    rcases List.mem_cons.mp hl with heq | hl
    · subst heq
      rw [hlast] at hn
      injection hn with hn
      subst hn
      cases node with
      | mk nm cls fps cs =>
        have hfps : fps.contains path = false := by
          simp only [SourcemapNode.file_paths] at hmem
          simpa using hmem
        have hcs : containsPath.containsPathList path cs = false := by
          rw [containsPathList_eq_false]
          intro c hc
          refine ih hnone (l ++ [c]) ?_ c (List.getLast?_concat _)
          refine List.mem_append_left _ ?_
          rw [List.mem_reverse]
          refine List.mem_map.mpr ⟨c, ?_, rfl⟩
          simpa [SourcemapNode.children] using hc
        simp only [containsPath, hfps, hcs, Bool.or_false]
    · exact ih hnone l (List.mem_append_right _ hl) n hn

/-- **C7**: `find_node` returns a chain starting at the root in which each
element after the first is a child of its predecessor and whose last element's
`file_paths` contains the given path; it returns `none` exactly when no node
of the tree carries the path, and `file_path_from_components` turns that
`none` into the fatal error "could not find node path". -/
theorem find_node_spec (root : SourcemapNode) (path : FsPath) :
    (∀ c, find_node root path = some c →
      c.head? = some root ∧ c.Chain' (fun a b => b ∈ a.children) ∧
      ∃ n, c.getLast? = some n ∧ path ∈ n.file_paths) ∧
    (find_node root path = none → containsPath path root = false) ∧
    (∀ fs q rest, canonicalize fs q = .ok path → find_node root path = none →
      file_path_from_components fs q root ("script" :: rest) =
        .error "could not find node path") := by
  refine ⟨?_, ?_, ?_⟩
  · intro c hc
    refine findNodeLoop_some_inv path root [[root]] ?_ c hc
    intro l hl
    rcases List.mem_singleton.mp hl with rfl
    exact ⟨rfl, List.chain'_singleton root⟩
  · intro hnone
    exact findNodeLoop_none_inv path [[root]] hnone [root] (List.mem_singleton.mpr rfl)
      root rfl
  · intro fs q rest hcanon hnone
    simp only [file_path_from_components, hcanon, exceptBind_ok, hnone, true_or,
      if_true, exceptBind_error]

/-- Fuel-indexed restatement of the `find_node` worklist loop: `none` means
the fuel ran out before the loop finished. -/
def findNodeFuel (path : FsPath) : Nat → List (List SourcemapNode) →
    Option (Option (List SourcemapNode))
  | 0, _ => none
  | _ + 1, [] => some none
  | fuel + 1, node_path :: stack =>
    match node_path.getLast? with
    | none => findNodeFuel path fuel stack
    | some node =>
      if path ∈ node.file_paths then some (some node_path)
      else findNodeFuel path fuel ((node.children.map (fun c => node_path ++ [c])).reverse ++ stack)

theorem chainWeight_pos (l : List SourcemapNode) : 1 ≤ chainWeight l := by
  rw [chainWeight]
  cases hl : l.getLast? with
  | none => exact le_refl 1
  | some n =>
    cases n with
    | mk nm cls fps cs =>
      show 1 ≤ nodeSize (.mk nm cls fps cs)
      rw [nodeSize]
      omega

/-- The worklist loop finishes within any fuel exceeding the stack measure. -/
theorem findNodeFuel_complete (path : FsPath) :
    ∀ fuel stack, stackMeasure stack < fuel →
      findNodeFuel path fuel stack = some (findNodeLoop path stack) := by
  intro fuel
  induction fuel with
  | zero => intro stack h; cases h
  | succ fuel ih =>
    intro stack hlt
    cases stack with
    | nil => rw [findNodeLoop_nil]; rfl
    | cons node_path stack =>
      have hcons : stackMeasure (node_path :: stack) =
          chainWeight node_path + stackMeasure stack := by
        simp [stackMeasure]
      cases hl : node_path.getLast? with
      | none =>
        rw [findNodeLoop_cons_empty _ _ _ hl]
        simp only [findNodeFuel, hl]
        refine ih stack ?_
        have := chainWeight_pos node_path
        omega
      | some node =>
        rw [findNodeLoop_cons _ _ _ _ hl]
        simp only [findNodeFuel, hl]
        by_cases hmem : path ∈ node.file_paths
        · rw [if_pos hmem, if_pos hmem]
        · rw [if_neg hmem, if_neg hmem]
          refine ih _ ?_
          have hdec := stackMeasure_children node_path node stack hl
          omega

/-- **C10**: the explicit-worklist search `find_node` terminates on every
(necessarily finite) sourcemap tree: running the loop with fuel bounded by the
tree size already yields its final answer — a chain or `none` — so the loop
performs at most `nodeSize root` iterations. -/
theorem find_node_terminates (root : SourcemapNode) (path : FsPath) :
    findNodeFuel path (nodeSize root + 1) [[root]] = some (find_node root path) := by
  refine findNodeFuel_complete path _ _ ?_
  have : stackMeasure [[root]] = nodeSize root := by
    simp [stackMeasure, chainWeight]
  omega

/-! ### C7 witness material -/

theorem find_node_spec_witness :
    [rootW, nodeA].head? = some rootW ∧
    List.Chain' (fun a b => b ∈ a.children) [rootW, nodeA] ∧
    ∃ n, [rootW, nodeA].getLast? = some n ∧ (["proj", "A.lua"] : FsPath) ∈ n.file_paths :=
  (find_node_spec rootW ["proj", "A.lua"]).1 [rootW, nodeA]
    (by simp [rootW, nodeA, find_node, findNodeLoop_nil, findNodeLoop_cons,
      List.getLast?_cons_cons, List.getLast?_singleton, SourcemapNode.file_paths,
      SourcemapNode.children])

/-! ### C6: module-file selection -/

theorem find?_eq_some_split {α : Type} (p : α → Bool) :
    ∀ (l : List α) (a : α), l.find? p = some a →
      p a = true ∧ ∃ pre post, l = pre ++ a :: post ∧ ∀ q ∈ pre, p q = false := by
  intro l
  induction l with
  | nil => intro a h; cases h
  | cons b l ih =>
    intro a h
    by_cases hb : p b = true
    · rw [List.find?_cons_of_pos _ hb] at h
      injection h with h
      subst h
      exact ⟨hb, [], l, rfl, by intro q hq; cases hq⟩
    · rw [List.find?_cons_of_neg _ hb] at h
      obtain ⟨hpa, pre, post, hsplit, hpre⟩ := ih a h
      subst hsplit
      refine ⟨hpa, b :: pre, post, rfl, ?_⟩
      intro q hq
      rcases List.mem_cons.mp hq with heq | hq
      · subst heq; simpa using hb
      · exact hpre q hq

theorem lua_files_filter_ext (p : FsPath) (h : lua_files_filter p = true) :
    pathExtension p = some "lua" ∨ pathExtension p = some "luau" := by
  cases he : pathExtension p with
  | none => simp [lua_files_filter, he] at h
  | some e =>
    simp only [lua_files_filter, he, Bool.or_eq_true, decide_eq_true_eq] at h
    rcases h with h | h
    · left; rw [h]
    · right; rw [h]

/-- **C6**: after all components are consumed, the destination node's file
paths are filtered purely by extension and the first match is returned: an
`ok` result is the first `file_paths` entry whose extension is `lua` or `luau`
(so never a `.json` path), and the fatal error "No file path for require" is
raised exactly when no entry has a module extension. -/
theorem select_lua_file_spec (chain : List SourcemapNode) (node : SourcemapNode)
    (h : chain.getLast? = some node) :
    (∀ fp, select_lua_file chain = .ok fp →
      (pathExtension fp = some "lua" ∨ pathExtension fp = some "luau") ∧
      ∃ pre post, node.file_paths = pre ++ fp :: post ∧
        ∀ q ∈ pre, lua_files_filter q = false) ∧
    (select_lua_file chain = .error "No file path for require" ↔
      ∀ q ∈ node.file_paths, lua_files_filter q = false) := by
  constructor
  · intro fp hfp
    simp only [select_lua_file, h] at hfp
    cases hf : node.file_paths.find? lua_files_filter with
    | none => rw [hf] at hfp; cases hfp
    | some q =>
      rw [hf] at hfp
      injection hfp with hfp
      subst hfp
      obtain ⟨hq, pre, post, heq, hpre⟩ := find?_eq_some_split _ _ _ hf
      exact ⟨lua_files_filter_ext _ hq, pre, post, heq, hpre⟩
  · constructor
    · intro herr q hq
      simp only [select_lua_file, h] at herr
      cases hf : node.file_paths.find? lua_files_filter with
      | none =>
        rw [List.find?_eq_none] at hf
        simpa using hf q hq
      | some r => rw [hf] at herr; cases herr
    · intro hall
      simp only [select_lua_file, h]
      have hf : node.file_paths.find? lua_files_filter = none := by
        rw [List.find?_eq_none]
        intro x hx
        simp [hall x hx]
      rw [hf]

def nodeJ : SourcemapNode :=
  .mk "B" "ModuleScript" [["proj", "B.json"], ["proj", "B.lua"]] []

theorem select_lua_file_spec_witness :
    ([nodeJ].getLast? = some nodeJ) ∧
    ((pathExtension (["proj", "B.lua"] : FsPath) = some "lua" ∨
      pathExtension (["proj", "B.lua"] : FsPath) = some "luau") ∧
     ∃ pre post, nodeJ.file_paths = pre ++ (["proj", "B.lua"] : FsPath) :: post ∧
       ∀ q ∈ pre, lua_files_filter q = false) :=
  ⟨rfl, (select_lua_file_spec [nodeJ] nodeJ rfl).1 ["proj", "B.lua"] rfl⟩

/-! ### C9: the ROOT anchor ignores the thunk's own location -/

/-- **C9**: resolving components anchored at `game` starts from the
single-element root chain and never consults the file system or the thunk's
own path (so `locate`/`find_node` is reached only on the `script` anchor): the
result is the pure walk from `[root]`, identical for any two file systems and
any two thunk paths. -/
theorem game_anchor_spec (fs₁ fs₂ : FsEntry) (p₁ p₂ : FsPath) (root : SourcemapNode)
    (rest : List String) :
    file_path_from_components fs₁ p₁ root ("game" :: rest) =
      (resolve_components [root] rest).bind select_lua_file ∧
    file_path_from_components fs₁ p₁ root ("game" :: rest) =
      file_path_from_components fs₂ p₂ root ("game" :: rest) :=
  ⟨rfl, rfl⟩

/-! ### C2: `Parent` popping and the "No parent available" error -/

theorem resolve_from_empty_not_ok (cs : List String) :
    ((resolve_components [] cs).bind select_lua_file).isOk = false := by
  cases cs with
  | nil => rfl
  | cons c r =>
    by_cases hc : c = "Parent"
    · subst hc; rfl
    · simp only [resolve_components, if_neg hc]
      rfl

/-- **C2** counterexample: starting from the root-only chain (`game` anchor),
a single `Parent` does not raise "No parent available" — `Vec::pop` succeeds
on the one-element chain and resolution fails afterwards with the
`last().unwrap()` panic instead; "No parent available" appears only one
`Parent` later, when the chain is already empty — contradicting "raises the
fatal error ... exactly when the current chain consists of only the root". -/
theorem parent_pop_counterexample :
    file_path_from_components fs5 ["Packages", "Foo.lua"] rootW ["game", "Parent"] =
      .error "called unwrap on None" ∧
    file_path_from_components fs5 ["Packages", "Foo.lua"] rootW
      ["game", "Parent", "Parent"] = .error "No parent available" :=
  ⟨rfl, rfl⟩

/-- **C2** (amended): a `Parent` component pops the last chain element, but
the pop raises "No parent available" only when the chain is already empty —
one `Parent` beyond the root pops the root itself and leaves the empty chain,
so that first extra `Parent` succeeds and resolution fails afterwards (with a
different error); a second extra `Parent` hits the empty chain and raises "No
parent available".  One extra `UP` past the root is still always a resolution
error, just not that one. -/
theorem parent_pop_spec (fs : FsEntry) (p : FsPath) (root : SourcemapNode)
    (rest : List String) :
    resolve_components [] ("Parent" :: rest) = .error "No parent available" ∧
    (file_path_from_components fs p root ("game" :: "Parent" :: rest)).isOk = false ∧
    file_path_from_components fs p root ["game", "Parent", "Parent"] =
      .error "No parent available" := by
  refine ⟨rfl, ?_, rfl⟩
  show ((resolve_components [] rest).bind select_lua_file).isOk = false
  exact resolve_from_empty_not_ok rest

/-! ### C1: unsupported require shapes are a fatal error, not a skip -/

/-- **C1** counterexample: a thunk whose return expression is
`require(foo())` — not a statically indexable chain, so the Analyzer yields
"not applicable" — makes the per-thunk step raise the fatal error of
`expect("could not resolve path for require")` instead of skipping the file
without error as claimed. -/
theorem not_applicable_counterexample :
    match_require (.call (.name "require") [.call (.name "foo") []]) = none ∧
    mutate_thunk mlU rootW fsC1 ["Packages", "Foo.lua"] =
      .error "could not resolve path for require" :=
  ⟨rfl, rfl⟩

/-- **C1** (amended): for a thunk file whose return expression is not a
supported statically-indexable require chain, the Analyzer indeed yields "not
applicable" (`none`), but the per-thunk step does not skip the file: it raises
the fatal error "could not resolve path for require", performing no mutation
and no write, and the run aborts. -/
theorem not_applicable_fatal (ml : MutatorFn) (root : SourcemapNode) (fs : FsEntry)
    (path : FsPath) (ast : LuaAst) (e : LuaExpr) (es : List LuaExpr)
    (hread : readFile fs path = .ok (.lua ast))
    (hret : ast.last_stmt = some (.ret (e :: es)))
    (hna : match_require e = none) :
    mutate_thunk ml root fs path = .error "could not resolve path for require" := by
  simp [mutate_thunk, hread, exceptBind_ok, fullMoonParse, hret, hna]

theorem not_applicable_fatal_witness :
    readFile fsC1 ["Packages", "Foo.lua"] =
      .ok (.lua ⟨[], some (.ret [.call (.name "require") [.call (.name "foo") []]])⟩) ∧
    mutate_thunk mlU rootW fsC1 ["Packages", "Foo.lua"] =
      .error "could not resolve path for require" :=
  ⟨rfl, not_applicable_fatal mlU rootW fsC1 ["Packages", "Foo.lua"]
    ⟨[], some (.ret [.call (.name "require") [.call (.name "foo") []]])⟩
    (.call (.name "require") [.call (.name "foo") []]) [] rfl rfl rfl⟩

/-! ### C3: the single-return assertion -/

/-- **C3** counterexample: a file whose body is `local x = 1` followed by the
non-return last statement `break` is not "exactly one return statement", yet
`mutate_thunk` silently succeeds on it (the `assert!` only checks that *some*
last statement exists, and the `if let Return` silently falls through) —
contradicting "fails fatally whenever the parsed file is not exactly one
return statement". -/
theorem single_return_counterexample :
    mutate_thunk mlU rootW fsC3 ["Packages", "Foo.lua"] = .ok fsC3 :=
  rfl

/-- **C3** (amended): the per-thunk step asserts only that the parsed file
has *a* last statement: it fails fatally when there is none, but a file whose
last statement is not a return is skipped silently with no write, and
statements before the return are not checked at all. -/
theorem single_return_assert_spec (ml : MutatorFn) (root : SourcemapNode) (fs : FsEntry)
    (path : FsPath) (ast : LuaAst)
    (hread : readFile fs path = .ok (.lua ast)) :
    (ast.last_stmt = none →
      mutate_thunk ml root fs path = .error "assertion failed: last_stmt is_some") ∧
    (ast.last_stmt = some .brk → mutate_thunk ml root fs path = .ok fs) := by
  constructor
  · intro hnone
    simp [mutate_thunk, hread, exceptBind_ok, fullMoonParse, hnone]
  · intro hbrk
    simp [mutate_thunk, hread, exceptBind_ok, fullMoonParse, hbrk]

theorem single_return_assert_spec_witness :
    readFile fsC3 ["Packages", "Foo.lua"] = .ok (.lua ⟨["local x = 1"], some .brk⟩) ∧
    ((⟨["local x = 1"], some .brk⟩ : LuaAst).last_stmt = some .brk ∧
      mutate_thunk mlU rootW fsC3 ["Packages", "Foo.lua"] = .ok fsC3) :=
  ⟨rfl, rfl,
    (single_return_assert_spec mlU rootW fsC3 ["Packages", "Foo.lua"]
      ⟨["local x = 1"], some .brk⟩ rfl).2 rfl⟩

/-! ### C5: no write-back unless the mutator reports `Changed` -/

/-- **C5**: whenever the per-thunk step succeeds, either the file system is
returned untouched (in particular whenever the Link Mutator answered
`Unchanged`, so the file's bytes after the run equal its bytes before), or the
mutator answered `Changed new_ast` and the only effect is the write-back of
`new_ast` at the thunk's own path. -/
theorem mutate_thunk_write_iff (ml : MutatorFn) (root : SourcemapNode) (fs : FsEntry)
    (path : FsPath) (fs' : FsEntry)
    (h : mutate_thunk ml root fs path = .ok fs') :
    fs' = fs ∨ ∃ ast returns contents new_ast,
      ml ast returns contents = .ok (.changed new_ast) ∧
      fsWrite fs path (fullMoonPrint new_ast) = .ok fs' := by
  unfold mutate_thunk at h
  cases hread : readFile fs path with
  | error e =>
    simp only [hread, exceptBind_error] at h
    exact Except.noConfusion h
  | ok text =>
    simp only [hread, exceptBind_ok] at h
    cases text with
    | raw t =>
      simp only [fullMoonParse, exceptBind_error] at h
      exact Except.noConfusion h
    | lua parsed =>
      simp only [fullMoonParse, exceptBind_ok] at h
      cases hls : parsed.last_stmt with
      | none =>
        simp only [hls, Option.isNone_none, if_true] at h
        exact Except.noConfusion h
      | some ls =>
        simp only [hls, Option.isNone_some, Bool.false_eq_true, if_false] at h
        cases ls with
        | brk => exact Or.inl (Except.ok.inj h).symm
        | ret returns =>
          cases returns with
          | nil => exact Except.noConfusion h
          | cons e es =>
            cases hmr : match_require e with
            | none =>
              simp only [hmr] at h
              exact Except.noConfusion h
            | some comps =>
              simp only [hmr] at h
              cases hfp : file_path_from_components fs path root comps with
              | error err =>
                simp only [hfp, exceptBind_error] at h
                exact Except.noConfusion h
              | ok fp =>
                simp only [hfp, exceptBind_ok] at h
                cases hptc : readFile fs fp with
                | error err =>
                  simp only [hptc, exceptBind_error] at h
                  exact Except.noConfusion h
                | ok ptc =>
                  simp only [hptc, exceptBind_ok] at h
                  cases hml : ml parsed (e :: es) ptc with
                  | error err =>
                    simp only [hml, exceptBind_error] at h
                    exact Except.noConfusion h
                  | ok res =>
                    simp only [hml, exceptBind_ok] at h
                    cases res with
                    | unchanged => exact Or.inl (Except.ok.inj h).symm
                    | changed new_ast =>
                      exact Or.inr ⟨parsed, e :: es, ptc, new_ast, hml, h⟩

theorem mutate_thunk_write_iff_witness :
    mutate_thunk mlU rootW fs5 ["Packages", "Foo.lua"] = .ok fs5 ∧
    (fs5 = fs5 ∨ ∃ ast returns contents new_ast,
      mlU ast returns contents = .ok (.changed new_ast) ∧
      fsWrite fs5 ["Packages", "Foo.lua"] (fullMoonPrint new_ast) = .ok fs5) :=
  ⟨rfl, mutate_thunk_write_iff mlU rootW fs5 ["Packages", "Foo.lua"] fs5 rfl⟩

/-! ### C4: the run aborts on the first failure -/

theorem exceptSeq_ok {α β : Type} (a : α) (f : α → Except String β) :
    ((Except.ok a : Except String α) >>= f) = f a := rfl

theorem exceptSeq_error {α β : Type} (e : String) (f : α → Except String β) :
    ((Except.error e : Except String α) >>= f) = Except.error e := rfl

theorem foldlM_except_ok_split {α β : Type} (f : β → α → Except String β) :
    ∀ (l₁ : List α) (x : α) (l₂ : List α) (b c : β),
      (l₁ ++ x :: l₂).foldlM f b = .ok c →
      ∃ g g', l₁.foldlM f b = .ok g ∧ f g x = .ok g' := by
  intro l₁
  induction l₁ with
  | nil =>
    intro x l₂ b c h
    rw [List.nil_append, List.foldlM_cons] at h
    cases hf : f b x with
    | error e => rw [hf, exceptSeq_error] at h; exact Except.noConfusion h
    | ok g' => exact ⟨b, g', by rw [List.foldlM_nil]; rfl, hf⟩
  | cons a l₁ ih =>
    intro x l₂ b c h
    rw [List.cons_append, List.foldlM_cons] at h
    cases hf : f b a with
    | error e => rw [hf, exceptSeq_error] at h; exact Except.noConfusion h
    | ok g =>
      rw [hf, exceptSeq_ok] at h
      obtain ⟨g₁, g₂, hfold, hx⟩ := ih x l₂ g c h
      exact ⟨g₁, g₂, by rw [List.foldlM_cons, hf, exceptSeq_ok]; exact hfold, hx⟩

/-- **C4**: the whole run aborts on the first failing per-entry step — if the
entries before `ent` process fine and `ent`'s step fails with `msg`, the run
returns exactly `.error msg`, never processing the entries after `ent` — and
the run returns `.ok` only when the directory read and every per-entry step
along the fold succeeded. -/
theorem run_aborts_on_first_failure :
    (∀ (ml : MutatorFn) (root : SourcemapNode) (fs : FsEntry) (pf : FsPath)
       (pre : List (String × FsEntry)) (ent : String × FsEntry)
       (post : List (String × FsEntry)) (fs₁ : FsEntry) (msg : String),
      readDir fs pf = .ok (pre ++ ent :: post) →
      pre.foldlM (run_entry ml root pf) fs = .ok fs₁ →
      run_entry ml root pf fs₁ ent = .error msg →
      command_run ml root fs pf = .error msg) ∧
    (∀ (ml : MutatorFn) (root : SourcemapNode) (fs : FsEntry) (pf : FsPath) (fs' : FsEntry),
      command_run ml root fs pf = .ok fs' →
      ∃ entries, readDir fs pf = .ok entries ∧
        ∀ pre ent post, entries = pre ++ ent :: post →
          ∃ g g', pre.foldlM (run_entry ml root pf) fs = .ok g ∧
            run_entry ml root pf g ent = .ok g') := by
  constructor
  · intro ml root fs pf pre ent post fs₁ msg hdir hpre herr
    unfold command_run mutate_sourcemap
    rw [hdir, exceptBind_ok, List.foldlM_append, hpre, exceptSeq_ok, List.foldlM_cons,
      herr, exceptSeq_error]
  · intro ml root fs pf fs' hrun
    unfold command_run mutate_sourcemap at hrun
    cases hdir : readDir fs pf with
    | error e =>
      rw [hdir, exceptBind_error] at hrun
      exact Except.noConfusion hrun
    | ok entries =>
      rw [hdir, exceptBind_ok] at hrun
      refine ⟨entries, rfl, ?_⟩
      intro pre ent post heq
      subst heq
      exact foldlM_except_ok_split _ pre ent post fs fs' hrun

/-- A packages directory whose single entry is a file the parser rejects. -/
def fs4 : FsEntry := .dir [("Packages", .dir [("Bad.lua", .file (.raw "not lua"))])]

theorem run_aborts_on_first_failure_witness :
    readDir fs4 ["Packages"] =
      .ok ([] ++ ("Bad.lua", FsEntry.file (.raw "not lua")) :: []) ∧
    ([] : List (String × FsEntry)).foldlM (run_entry mlU rootW ["Packages"]) fs4 = .ok fs4 ∧
    run_entry mlU rootW ["Packages"] fs4 ("Bad.lua", FsEntry.file (.raw "not lua")) =
      .error "full_moon parse error" ∧
    command_run mlU rootW fs4 ["Packages"] = .error "full_moon parse error" :=
  ⟨rfl, rfl, rfl,
    (run_aborts_on_first_failure).1 mlU rootW fs4 ["Packages"] []
      ("Bad.lua", FsEntry.file (.raw "not lua")) [] fs4 "full_moon parse error"
      rfl rfl rfl⟩

/-! ### C8: directory enumeration.  The run mutates thunk files while it
walks, so we first show every successful per-thunk step preserves the
file-system *shape* (names and file/dir kinds at every path), which pins down
every later directory read. -/

/-- Name and file/dir kind of one directory entry. -/
def nameFlag (en : String × FsEntry) : String × Bool := (en.1, en.2.isFile)

/-- One-level shape of an entry: `none` for a file, the named kinds of the
children for a directory. -/
def entryShape : FsEntry → Option (List (String × Bool))
  | .file _ => none
  | .dir es => some (es.map nameFlag)

/-- Shape of the entry reached by a path. -/
def shapeAt (fs : FsEntry) (q : FsPath) : Option (Option (List (String × Bool))) :=
  (fsLookup fs q).map entryShape

/-- `fs₁` has the same tree of names and file/dir kinds as `fs₀`. -/
def preservesShape (fs₀ fs₁ : FsEntry) : Prop := ∀ q, shapeAt fs₁ q = shapeAt fs₀ q

theorem preservesShape_refl (fs : FsEntry) : preservesShape fs fs := fun _ => rfl

theorem preservesShape_trans {fs₀ fs₁ fs₂ : FsEntry}
    (h₁ : preservesShape fs₀ fs₁) (h₂ : preservesShape fs₁ fs₂) :
    preservesShape fs₀ fs₂ := fun q => (h₂ q).trans (h₁ q)

theorem setEntry_find_self (n : String) (e' : FsEntry) :
    ∀ (es : List (String × FsEntry)) (e₀ : String × FsEntry),
      es.find? (fun en => en.1 == n) = some e₀ →
      (setEntry es n e').find? (fun en => en.1 == n) = some (n, e') := by
  intro es
  induction es with
  | nil => intro e₀ h; cases h
  | cons hd rest ih =>
    intro e₀ h
    obtain ⟨m, x⟩ := hd
    by_cases hm : m = n
    · subst hm
      rw [setEntry, if_pos rfl]
      rw [List.find?_cons_of_pos _ (by simp)]
    · rw [List.find?_cons_of_neg _ (by simpa using hm)] at h
      rw [setEntry, if_neg hm]
      rw [List.find?_cons_of_neg _ (by simpa using hm)]
      exact ih e₀ h

theorem setEntry_find_other (n m : String) (e' : FsEntry) (hm : m ≠ n) :
    ∀ (es : List (String × FsEntry)),
      (setEntry es n e').find? (fun en => en.1 == m) = es.find? (fun en => en.1 == m) := by
  intro es
  induction es with
  | nil =>
    rw [setEntry]
    rw [List.find?_cons_of_neg _ (by simpa using Ne.symm hm)]
  | cons hd rest ih =>
    obtain ⟨k, x⟩ := hd
    by_cases hk : k = n
    · subst hk
      rw [setEntry, if_pos rfl]
      rw [List.find?_cons_of_neg _ (by simpa using Ne.symm hm),
        List.find?_cons_of_neg _ (by simpa using Ne.symm hm)]
    · rw [setEntry, if_neg hk]
      by_cases hkm : k = m
      · subst hkm
        rw [List.find?_cons_of_pos _ (by simp), List.find?_cons_of_pos _ (by simp)]
      · rw [List.find?_cons_of_neg _ (by simpa using hkm),
          List.find?_cons_of_neg _ (by simpa using hkm)]
        exact ih

theorem setEntry_map_nameFlag (n : String) (e' : FsEntry) :
    ∀ (es : List (String × FsEntry)) (e₀ : String × FsEntry),
      es.find? (fun en => en.1 == n) = some e₀ → e₀.2.isFile = e'.isFile →
      (setEntry es n e').map nameFlag = es.map nameFlag := by
  intro es
  induction es with
  | nil => intro e₀ h _; cases h
  | cons hd rest ih =>
    intro e₀ h hflag
    obtain ⟨m, x⟩ := hd
    by_cases hm : m = n
    · subst hm
      rw [List.find?_cons_of_pos _ (by simp)] at h
      injection h with h
      subst h
      have hx : x.isFile = e'.isFile := by simpa using hflag
      rw [setEntry, if_pos rfl]
      simp [nameFlag, hx]
    · rw [List.find?_cons_of_neg _ (by simpa using hm)] at h
      rw [setEntry, if_neg hm]
      simp only [List.map_cons]
      rw [ih e₀ h hflag]

theorem readFile_ok_lookup (fs : FsEntry) (p : FsPath) (c : Content)
    (h : readFile fs p = .ok c) : fsLookup fs p = some (.file c) := by
  unfold readFile at h
  cases hl : fsLookup fs p with
  | none => rw [hl] at h; exact Except.noConfusion h
  | some e =>
    rw [hl] at h
    cases e with
    | file c₀ =>
      injection h with h
      rw [h]
    | dir es => exact Except.noConfusion h

theorem readDir_ok_lookup (fs : FsEntry) (p : FsPath) (es : List (String × FsEntry))
    (h : readDir fs p = .ok es) : fsLookup fs p = some (.dir es) := by
  unfold readDir at h
  cases hl : fsLookup fs p with
  | none => rw [hl] at h; exact Except.noConfusion h
  | some e =>
    rw [hl] at h
    cases e with
    | file c₀ => exact Except.noConfusion h
    | dir es₀ =>
      injection h with h
      rw [h]

theorem entryShape_isFile {a b : FsEntry} (h : entryShape a = entryShape b) :
    a.isFile = b.isFile := by
  cases a <;> cases b <;> simp_all [entryShape, FsEntry.isFile]

/-- Step a lookup result one level down by entry name. -/
def lookupChild (r : Option FsEntry) (n : String) : Option FsEntry :=
  match r with
  | some (.dir es) => (es.find? (fun en => en.1 == n)).map (fun en => en.2)
  | _ => none

theorem fsLookup_append_singleton :
    ∀ (q : FsPath) (fs : FsEntry) (n : String),
      fsLookup fs (q ++ [n]) = lookupChild (fsLookup fs q) n := by
  intro q
  induction q with
  | nil =>
    intro fs n
    cases fs with
    | file c => rfl
    | dir es =>
      simp only [List.nil_append, fsLookup, lookupChild]
      cases hf : es.find? (fun en => en.1 == n) with
      | none => rfl
      | some en => obtain ⟨m, e⟩ := en; rfl
  | cons m q' ih =>
    intro fs n
    cases fs with
    | file c => rfl
    | dir es =>
      simp only [List.cons_append, fsLookup]
      cases hf : es.find? (fun en => en.1 == m) with
      | none => rfl
      | some en =>
        obtain ⟨k, e⟩ := en
        exact ih e n

/-- Overwriting an existing *file* changes no names and no file/dir kinds
anywhere in the tree. -/
theorem fsWrite_preservesShape :
    ∀ (p : FsPath) (fs : FsEntry) (c c₀ : Content) (fs' : FsEntry),
      fsLookup fs p = some (.file c₀) → fsWrite fs p c = .ok fs' →
      preservesShape fs fs' := by
  intro p
  induction p with
  | nil =>
    intro fs c c₀ fs' hlook hw
    cases fs <;> exact Except.noConfusion hw
  | cons n rest ih =>
    intro fs c c₀ fs' hlook hw
    cases fs with
    | file c₁ => exact Except.noConfusion hw
    | dir es =>
      simp only [fsLookup] at hlook
      cases hf : es.find? (fun en => en.1 == n) with
      | none =>
        rw [hf] at hlook
        exact Option.noConfusion hlook
      | some en =>
        obtain ⟨m, e⟩ := en
        rw [hf] at hlook
        simp only [] at hlook
        cases rest with
        | nil =>
          simp only [fsWrite] at hw
          injection hw with hw
          subst hw
          simp only [fsLookup] at hlook
          have he : e = .file c₀ := Option.some.inj hlook
          subst he
          intro q
          cases q with
          | nil =>
            show some (entryShape (.dir (setEntry es n (.file c)))) =
              some (entryShape (.dir es))
            simp only [entryShape]
            rw [setEntry_map_nameFlag n (.file c) es (m, .file c₀) hf rfl]
          | cons m' qrest =>
            simp only [shapeAt, fsLookup]
            by_cases hm' : m' = n
            · subst hm'
              rw [setEntry_find_self m' (.file c) es _ hf, hf]
              cases qrest with
              | nil => rfl
              | cons a b => rfl
            · rw [setEntry_find_other n m' (.file c) hm' es]
        | cons r rest' =>
          simp only [fsWrite] at hw
          rw [hf] at hw
          simp only [] at hw
          cases hwr : fsWrite e (r :: rest') c with
          | error er =>
            rw [hwr] at hw
            exact Except.noConfusion hw
          | ok e'' =>
            rw [hwr] at hw
            simp only [Except.map] at hw
            injection hw with hw
            subst hw
            have hshape := ih e c c₀ e'' hlook hwr
            intro q
            cases q with
            | nil =>
              show some (entryShape (.dir (setEntry es n e''))) =
                some (entryShape (.dir es))
              simp only [entryShape]
              have hef : e''.isFile = e.isFile := by
                have h0 := hshape []
                simp only [shapeAt, fsLookup] at h0
                exact entryShape_isFile (Option.some.inj h0)
              rw [setEntry_map_nameFlag n e'' es (m, e) hf hef.symm]
            | cons m' qrest =>
              simp only [shapeAt, fsLookup]
              by_cases hm' : m' = n
              · subst hm'
                rw [setEntry_find_self m' e'' es _ hf, hf]
                exact hshape qrest
              · rw [setEntry_find_other n m' e'' hm' es]

/-- A successful per-thunk step either leaves the file system untouched or
overwrites the (existing) file at the thunk's own path. -/
theorem mutate_thunk_write_target (ml : MutatorFn) (root : SourcemapNode) (fs : FsEntry)
    (path : FsPath) (fs' : FsEntry) (h : mutate_thunk ml root fs path = .ok fs') :
    fs' = fs ∨ ∃ c₀ c₁, fsLookup fs path = some (.file c₀) ∧ fsWrite fs path c₁ = .ok fs' := by
  unfold mutate_thunk at h
  cases hread : readFile fs path with
  | error e =>
    simp only [hread, exceptBind_error] at h
    exact Except.noConfusion h
  | ok text =>
    simp only [hread, exceptBind_ok] at h
    have hlook := readFile_ok_lookup fs path text hread
    cases text with
    | raw t =>
      simp only [fullMoonParse, exceptBind_error] at h
      exact Except.noConfusion h
    | lua parsed =>
      simp only [fullMoonParse, exceptBind_ok] at h
      cases hls : parsed.last_stmt with
      | none =>
        simp only [hls, Option.isNone_none, if_true] at h
        exact Except.noConfusion h
      | some ls =>
        simp only [hls, Option.isNone_some, Bool.false_eq_true, if_false] at h
        cases ls with
        | brk => exact Or.inl (Except.ok.inj h).symm
        | ret returns =>
          cases returns with
          | nil => exact Except.noConfusion h
          | cons e es =>
            cases hmr : match_require e with
            | none =>
              simp only [hmr] at h
              exact Except.noConfusion h
            | some comps =>
              simp only [hmr] at h
              cases hfp : file_path_from_components fs path root comps with
              | error err =>
                simp only [hfp, exceptBind_error] at h
                exact Except.noConfusion h
              | ok fp =>
                simp only [hfp, exceptBind_ok] at h
                cases hptc : readFile fs fp with
                | error err =>
                  simp only [hptc, exceptBind_error] at h
                  exact Except.noConfusion h
                | ok ptc =>
                  simp only [hptc, exceptBind_ok] at h
                  cases hml : ml parsed (e :: es) ptc with
                  | error err =>
                    simp only [hml, exceptBind_error] at h
                    exact Except.noConfusion h
                  | ok res =>
                    simp only [hml, exceptBind_ok] at h
                    cases res with
                    | unchanged => exact Or.inl (Except.ok.inj h).symm
                    | changed new_ast =>
                      exact Or.inr ⟨.lua parsed, fullMoonPrint new_ast, hlook, h⟩

/-- A successful per-thunk step preserves the file-system shape. -/
theorem mutate_thunk_shape (ml : MutatorFn) (root : SourcemapNode) (fs : FsEntry)
    (path : FsPath) (fs' : FsEntry) (h : mutate_thunk ml root fs path = .ok fs') :
    preservesShape fs fs' := by
  rcases mutate_thunk_write_target ml root fs path fs' h with heq | ⟨c₀, c₁, hlook, hw⟩
  · rw [heq]; exact preservesShape_refl fs
  · exact fsWrite_preservesShape path fs c₁ c₀ fs' hlook hw

/-- A successful fold of per-thunk steps preserves the file-system shape. -/
theorem foldlM_mutate_shape (ml : MutatorFn) (root : SourcemapNode) (fs₀ : FsEntry) :
    ∀ (ps : List FsPath) (fs₁ fs₂ : FsEntry),
      preservesShape fs₀ fs₁ →
      ps.foldlM (fun b p => mutate_thunk ml root b p) fs₁ = .ok fs₂ →
      preservesShape fs₀ fs₂ := by
  intro ps
  induction ps with
  | nil =>
    intro fs₁ fs₂ hp h
    rw [List.foldlM_nil] at h
    have heq : fs₁ = fs₂ := Except.ok.inj h
    subst heq
    exact hp
  | cons p ps ih =>
    intro fs₁ fs₂ hp h
    rw [List.foldlM_cons] at h
    cases hm : mutate_thunk ml root fs₁ p with
    | error e =>
      rw [hm, exceptSeq_error] at h
      exact Except.noConfusion h
    | ok g =>
      rw [hm, exceptSeq_ok] at h
      exact ih g fs₂ (preservesShape_trans hp (mutate_thunk_shape ml root fs₁ p g hm)) h

theorem shapeAt_dir {fs : FsEntry} {q : FsPath} {L : List (String × Bool)}
    (h : shapeAt fs q = some (some L)) :
    ∃ es', fsLookup fs q = some (.dir es') ∧ es'.map nameFlag = L := by
  unfold shapeAt at h
  cases hl : fsLookup fs q with
  | none =>
    rw [hl] at h
    exact Option.noConfusion h
  | some e =>
    rw [hl, Option.map_some'] at h
    cases e with
    | file c => simp [entryShape] at h
    | dir es' =>
      refine ⟨es', rfl, ?_⟩
      simpa [entryShape] using h

theorem exceptBind_congr {α β : Type} {x : Except String α} {f g : α → Except String β}
    (h : ∀ a, x = .ok a → f a = g a) : (x >>= f) = (x >>= g) := by
  cases x with
  | error e => rfl
  | ok a => exact h a rfl

/-- The inner thunk loop of `handle_index_directory` visits exactly the
regular files of the package directory, in order, as `mutate_thunk` calls. -/
theorem thunks_fold_eq (ml : MutatorFn) (root : SourcemapNode) (idx : FsPath) (pn : String) :
    ∀ (ts' ts : List (String × FsEntry)) (b : FsEntry),
      ts'.map nameFlag = ts.map nameFlag →
      ts'.foldlM (fun fs thunk =>
          if thunk.2.isFile then mutate_thunk ml root fs (idx ++ [pn, thunk.1])
          else .ok fs) b =
      (ts.filterMap (fun t =>
          if t.2.isFile then some (idx ++ [pn, t.1]) else none)).foldlM
        (fun b p => mutate_thunk ml root b p) b := by
  intro ts'
  induction ts' with
  | nil =>
    intro ts b hmap
    cases ts with
    | nil => rfl
    | cons t r => simp at hmap
  | cons t' r' ih =>
    intro ts b hmap
    cases ts with
    | nil => simp at hmap
    | cons t r =>
      simp only [List.map_cons, List.cons.injEq] at hmap
      obtain ⟨hhd, htl⟩ := hmap
      simp only [nameFlag, Prod.mk.injEq] at hhd
      obtain ⟨h1, h2⟩ := hhd
      simp only [List.foldlM_cons, List.filterMap_cons]
      by_cases hit : t.2.isFile = true
      · rw [if_pos (h2.trans hit), if_pos hit, h1]
        simp only [List.foldlM_cons]
        refine exceptBind_congr ?_
        intro g _
        exact ih r g htl
      · rw [if_neg (fun hc => hit (h2.symm.trans hc)), if_neg hit, exceptSeq_ok]
        exact ih r b htl

/-- The package loop of `handle_index_directory` visits exactly the regular
files of each package subdirectory, in order. -/
theorem pkgs_fold_eq (ml : MutatorFn) (root : SourcemapNode) (fs : FsEntry) (idx : FsPath) :
    ∀ (pkgs' pkgs : List (String × FsEntry)) (b : FsEntry),
      preservesShape fs b →
      pkgs'.map nameFlag = pkgs.map nameFlag →
      (∀ pe ∈ pkgs, ∃ ts, pe.2 = .dir ts ∧
        shapeAt fs (idx ++ [pe.1]) = some (some (ts.map nameFlag))) →
      pkgs'.foldlM (fun fs package_entry =>
          (readDir fs (idx ++ [package_entry.1])).bind fun thunks =>
          thunks.foldlM (fun fs thunk =>
            if thunk.2.isFile then
              mutate_thunk ml root fs (idx ++ [package_entry.1, thunk.1])
            else .ok fs) fs) b =
      (pkgs.flatMap fun pe =>
          match pe.2 with
          | .dir ts => ts.filterMap fun t =>
              if t.2.isFile then some (idx ++ [pe.1, t.1]) else none
          | .file _ => ([] : List FsPath)).foldlM (fun b p => mutate_thunk ml root b p) b := by
  intro pkgs'
  induction pkgs' with
  | nil =>
    intro pkgs b hp hmap hstruct
    cases pkgs with
    | nil => rfl
    | cons pe r => simp at hmap
  | cons pe' r' ih =>
    intro pkgs b hp hmap hstruct
    cases pkgs with
    | nil => simp at hmap
    | cons pe r =>
      simp only [List.map_cons, List.cons.injEq] at hmap
      obtain ⟨hhd, htl⟩ := hmap
      simp only [nameFlag, Prod.mk.injEq] at hhd
      obtain ⟨h1, _⟩ := hhd
      obtain ⟨ts, hts, hshape⟩ := hstruct pe (List.mem_cons_self _ _)
      have hb := hp (idx ++ [pe.1])
      rw [hshape] at hb
      obtain ⟨ts₁, hl1, hmap1⟩ := shapeAt_dir hb
      have hrd : readDir b (idx ++ [pe.1]) = .ok ts₁ := by
        unfold readDir; rw [hl1]
      simp only [List.foldlM_cons, List.flatMap_cons, List.foldlM_append]
      rw [h1, hrd, exceptBind_ok, hts]
      rw [thunks_fold_eq ml root idx pe.1 ts₁ ts b hmap1]
      refine exceptBind_congr ?_
      intro g hg
      exact ih r g
        (foldlM_mutate_shape ml root fs _ b g hp hg) htl
        (fun pe₂ hm => hstruct pe₂ (List.mem_cons_of_mem _ hm))

/-- The thunk files the claim says one direct entry of the packages directory
contributes: the entry itself, unless it is the reserved `_Index` directory,
in which case the regular files of each of its immediate subdirectories. -/
def thunk_paths_of_entry (pf : FsPath) (en : String × FsEntry) : List FsPath :=
  if en.1 = "_Index" then
    match en.2 with
    | .dir pkgs =>
      pkgs.flatMap fun pe =>
        match pe.2 with
        | .dir ts => ts.filterMap fun t =>
            if t.2.isFile then some ((pf ++ [en.1]) ++ [pe.1, t.1]) else none
        | .file _ => []
    | .file _ => []
  else [pf ++ [en.1]]

/-- All thunk files the claim says the packages directory contributes. -/
def claimed_thunk_paths (pf : FsPath) (entries : List (String × FsEntry)) : List FsPath :=
  entries.flatMap (thunk_paths_of_entry pf)

/-- The per-entry loop of `Command::run` is the fold of `mutate_thunk` over
exactly the claimed thunk paths. -/
theorem entries_fold_eq (ml : MutatorFn) (root : SourcemapNode) (fs : FsEntry) (pf : FsPath) :
    ∀ (l : List (String × FsEntry)) (b : FsEntry),
      preservesShape fs b →
      (∀ en ∈ l, en.1 = "_Index" → ∃ pkgs, en.2 = .dir pkgs ∧
        shapeAt fs (pf ++ [en.1]) = some (some (pkgs.map nameFlag)) ∧
        ∀ pe ∈ pkgs, ∃ ts, pe.2 = .dir ts ∧
          shapeAt fs ((pf ++ [en.1]) ++ [pe.1]) = some (some (ts.map nameFlag))) →
      l.foldlM (run_entry ml root pf) b =
      (claimed_thunk_paths pf l).foldlM (fun b p => mutate_thunk ml root b p) b := by
  intro l
  induction l with
  | nil => intro b hp hstruct; rfl
  | cons en r ih =>
    intro b hp hstruct
    simp only [claimed_thunk_paths, List.foldlM_cons, List.flatMap_cons, List.foldlM_append]
    by_cases hn : en.1 = "_Index"
    · obtain ⟨pkgs, hpkgs, hsh, hstruct2⟩ := hstruct en (List.mem_cons_self _ _) hn
      rw [run_entry, if_pos hn]
      rw [handle_index_directory]
      have hb := hp (pf ++ [en.1])
      rw [hsh] at hb
      obtain ⟨pkgs₁, hl1, hmap1⟩ := shapeAt_dir hb
      have hrd : readDir b (pf ++ [en.1]) = .ok pkgs₁ := by
        unfold readDir; rw [hl1]
      rw [hrd, exceptBind_ok]
      rw [pkgs_fold_eq ml root fs (pf ++ [en.1]) pkgs₁ pkgs b hp hmap1 hstruct2]
      have hch : thunk_paths_of_entry pf en =
          pkgs.flatMap (fun pe =>
            match pe.2 with
            | .dir ts => ts.filterMap fun t =>
                if t.2.isFile then some ((pf ++ [en.1]) ++ [pe.1, t.1]) else none
            | .file _ => ([] : List FsPath)) := by
        rw [thunk_paths_of_entry, if_pos hn, hpkgs]
      rw [hch]
      refine exceptBind_congr ?_
      intro g hg
      exact ih g (foldlM_mutate_shape ml root fs _ b g hp hg)
        (fun en₂ hm => hstruct en₂ (List.mem_cons_of_mem _ hm))
    · rw [run_entry, if_neg hn]
      have hch : thunk_paths_of_entry pf en = [pf ++ [en.1]] := by
        rw [thunk_paths_of_entry, if_neg hn]
      rw [hch]
      simp only [List.foldlM_cons, List.foldlM_nil]
      rw [bind_pure]
      refine exceptBind_congr ?_
      intro g hg
      exact ih g
        (preservesShape_trans hp (mutate_thunk_shape ml root b (pf ++ [en.1]) g hg))
        (fun en₂ hm => hstruct en₂ (List.mem_cons_of_mem _ hm))

theorem find?_of_nodup_mem :
    ∀ (es : List (String × FsEntry)), (es.map Prod.fst).Nodup →
      ∀ en ∈ es, es.find? (fun x => x.1 == en.1) = some en := by
  intro es
  induction es with
  | nil => intro _ en hen; cases hen
  | cons hd rest ih =>
    intro hnd en hen
    obtain ⟨k, v⟩ := hd
    simp only [List.map_cons, List.nodup_cons] at hnd
    obtain ⟨hk, hnd'⟩ := hnd
    rcases List.mem_cons.mp hen with heq | hen'
    · subst heq
      rw [List.find?_cons_of_pos _ (by simp)]
    · have hne : k ≠ en.1 := by
        intro hkeq
        apply hk
        rw [hkeq]
        exact List.mem_map.mpr ⟨en, hen', rfl⟩
      rw [List.find?_cons_of_neg _ (by simpa using hne)]
      exact ih hnd' en hen'

/-- **C8**: for every direct entry of the packages directory, the run
processes exactly the claimed thunks — the entry itself unless it is named
`_Index`, and for `_Index` exactly the regular files inside each of its
immediate subdirectories — each exactly once and in order (the whole run *is*
the fold of `mutate_thunk` over that path list), and the `_Index` entry
itself is never among the processed thunk paths. -/
theorem index_enumeration_spec (ml : MutatorFn) (root : SourcemapNode) (fs : FsEntry)
    (pf : FsPath) (entries : List (String × FsEntry))
    (hdir : readDir fs pf = .ok entries)
    (hnodup : (entries.map Prod.fst).Nodup)
    (hidx : ∀ en ∈ entries, en.1 = "_Index" → ∃ pkgs, en.2 = .dir pkgs ∧
      (pkgs.map Prod.fst).Nodup ∧ ∀ pe ∈ pkgs, ∃ ts, pe.2 = .dir ts) :
    command_run ml root fs pf =
      (claimed_thunk_paths pf entries).foldlM (fun b p => mutate_thunk ml root b p) fs ∧
    (pf ++ ["_Index"]) ∉ claimed_thunk_paths pf entries := by
  constructor
  · unfold command_run mutate_sourcemap
    rw [hdir, exceptBind_ok]
    refine entries_fold_eq ml root fs pf entries fs (preservesShape_refl fs) ?_
    intro en hen hn
    obtain ⟨pkgs, hpkgs, hnd2, hts⟩ := hidx en hen hn
    have hlookpf : fsLookup fs pf = some (.dir entries) := readDir_ok_lookup fs pf entries hdir
    have hlook1 : fsLookup fs (pf ++ [en.1]) = some en.2 := by
      rw [fsLookup_append_singleton, hlookpf]
      simp only [lookupChild]
      rw [find?_of_nodup_mem entries hnodup en hen]
      rfl
    refine ⟨pkgs, hpkgs, ?_, ?_⟩
    · rw [shapeAt, hlook1, Option.map_some', hpkgs]
      rfl
    · intro pe hpe
      obtain ⟨ts, hts2⟩ := hts pe hpe
      have hlook2 : fsLookup fs ((pf ++ [en.1]) ++ [pe.1]) = some pe.2 := by
        rw [fsLookup_append_singleton, hlook1, hpkgs]
        simp only [lookupChild]
        rw [find?_of_nodup_mem pkgs hnd2 pe hpe]
        rfl
      exact ⟨ts, hts2, by rw [shapeAt, hlook2, Option.map_some', hts2]; rfl⟩
  · intro hmem
    unfold claimed_thunk_paths at hmem
    rw [List.mem_flatMap] at hmem
    obtain ⟨en, hen, hmem⟩ := hmem
    obtain ⟨n₂, e₂⟩ := en
    unfold thunk_paths_of_entry at hmem
    by_cases hn : n₂ = "_Index"
    · rw [if_pos hn] at hmem
      cases e₂ with
      | file c => simp only [] at hmem; cases hmem
      | dir pkgs =>
        simp only [] at hmem
        rw [List.mem_flatMap] at hmem
        obtain ⟨pe, hpe, hmem⟩ := hmem
        obtain ⟨m₂, pe₂⟩ := pe
        cases pe₂ with
        | file c => simp only [] at hmem; cases hmem
        | dir ts =>
          simp only [] at hmem
          rw [List.mem_filterMap] at hmem
          obtain ⟨t, ht, hmem⟩ := hmem
          by_cases hit : t.2.isFile = true
          · rw [if_pos hit] at hmem
            injection hmem with hmem
            have hlen := congrArg List.length hmem
            simp [List.length_append] at hlen
          · rw [if_neg hit] at hmem
            cases hmem
    · rw [if_neg hn] at hmem
      rw [List.mem_singleton] at hmem
      have htail := List.append_cancel_left hmem.symm
      injection htail with h1 _
      exact hn h1

/-- A thunk chunk `return require(game.A)`. -/
def thunkGameA : FsEntry :=
  .file (.lua ⟨[], some (.ret [.call (.name "require") [.index (.name "game") "A"]])⟩)

/-- Direct entries of a packages directory with one top-level thunk and one
`_Index` directory holding one package with one thunk file. -/
def entries8 : List (String × FsEntry) :=
  [("Foo.lua", thunkGameA),
   ("_Index", .dir [("pkg-1.0.0", .dir [("init.lua", thunkGameA)])])]

/-- A file system containing `entries8` under `Packages` plus the target
module. -/
def fs8 : FsEntry :=
  .dir [("proj", .dir [("A.lua", .file (.raw "return {}"))]),
        ("Packages", .dir entries8)]

theorem index_enumeration_spec_witness :
    readDir fs8 ["Packages"] = .ok entries8 ∧
    (entries8.map Prod.fst).Nodup ∧
    (command_run mlU rootW fs8 ["Packages"] =
      (claimed_thunk_paths ["Packages"] entries8).foldlM
        (fun b p => mutate_thunk mlU rootW b p) fs8 ∧
     (["Packages"] ++ ["_Index"]) ∉ claimed_thunk_paths ["Packages"] entries8) :=
  ⟨rfl, by decide,
    index_enumeration_spec mlU rootW fs8 ["Packages"] entries8 rfl (by decide)
      (by
        intro en hen h1
        simp only [entries8, List.mem_cons, List.mem_singleton] at hen
        rcases hen with rfl | hen
        · exact absurd h1 (by decide)
        · rcases hen with rfl | hen
          · refine ⟨[("pkg-1.0.0", .dir [("init.lua", thunkGameA)])], rfl, by decide, ?_⟩
            intro pe hpe
            simp only [List.mem_singleton] at hpe
            subst hpe
            exact ⟨[("init.lua", thunkGameA)], rfl⟩
          · cases hen)⟩
